import Mathlib

/-!
Verification development for the pyrion chain-file reader, its batching layer,
the score-based ranking utility, the configuration surface, and the
interval-projection engine.

Bytes are modelled as natural numbers (their ASCII values); byte strings as
`List Nat`.  The chain header marker `b"chain "` is the byte list
`[99, 104, 97, 105, 110, 32]` and the newline byte is `10`.
-/

namespace Pyrion

/-- The record-header marker `b"chain "`. -/
def marker : List Nat := [99, 104, 97, 105, 110, 32]

/-- ASCII whitespace as recognised by Python `bytes.strip()` / `bytes.split()`:
tab, newline, vertical tab, form feed, carriage return, space. -/
def isWSb (c : Nat) : Bool :=
  c == 9 || c == 10 || c == 11 || c == 12 || c == 13 || c == 32

/-- Remove trailing ASCII whitespace (the right half of `bytes.strip()`). -/
def stripRight (l : List Nat) : List Nat := (l.reverse.dropWhile isWSb).reverse

/-- Python `bytes.strip()`: drop leading and trailing ASCII whitespace. -/
def pyStrip (l : List Nat) : List Nat := stripRight (l.dropWhile isWSb)

/-- Emit the (reversed) token accumulator of `pySplitAcc`, if non-empty. -/
def emitTok (acc : List Nat) : List (List Nat) :=
  if acc.isEmpty then [] else [acc.reverse]

/-- Worker for `pySplit`, carrying the current token reversed. -/
def pySplitAcc : List Nat → List Nat → List (List Nat)
  | [], acc => emitTok acc
  | c :: rest, acc =>
    if isWSb c then emitTok acc ++ pySplitAcc rest [] else pySplitAcc rest (c :: acc)

/-- Python `bytes.split()` with no separator: split on runs of ASCII
whitespace, never producing empty tokens. -/
def pySplit (l : List Nat) : List (List Nat) := pySplitAcc l []

/-- ASCII decimal digit. -/
def isDigit (c : Nat) : Bool := 48 ≤ c && c ≤ 57

/-- Continue parsing a Python integer literal after its first digit:
digits, with single underscores allowed between digits. -/
def digitsUnd : List Nat → Nat → Option Nat
  | [], acc => some acc
  | c :: rest, acc =>
    if isDigit c then digitsUnd rest (acc * 10 + (c - 48))
    else if c == 95 then
      match rest with
      | [] => none
      | d :: rest2 =>
        if isDigit d then digitsUnd rest2 (acc * 10 + (d - 48)) else none
    else none

/-- Parse a non-negative Python integer literal (at least one digit,
underscores only between digits). -/
def parseNatTok : List Nat → Option Nat
  | [] => none
  | c :: rest => if isDigit c then digitsUnd rest (c - 48) else none

/-- Python `int()` applied to a whitespace-free byte token: optional sign,
then digits with optional single underscores between digits; `none` means
`int()` raises `ValueError`. -/
def parseIntTok (l : List Nat) : Option Int :=
  match l with
  | 43 :: rest => (parseNatTok rest).map (fun n => (n : Int))
  | 45 :: rest => (parseNatTok rest).map (fun n => -(n : Int))
  | _ => (parseNatTok l).map (fun n => (n : Int))

/-- `_header_meets_min_score`: `True` if the header's score field is missing,
unparseable, or `>= min_score`; `False` exactly when the second
whitespace-separated field parses as an integer below `min_score`. -/
def headerMeetsMinScore (headerLine : List Nat) (minScore : Int) : Bool :=
  match pySplit headerLine with
  | _ :: tok :: _ =>
    match parseIntTok tok with
    | some v => decide (minScore ≤ v)
    | none => true
  | _ => true

/-- The `header_score_ok` value assigned by `_iter_chunks_from_stream` when a
new header line starts a chunk. -/
def okOf (ms : Option Int) (line : List Nat) : Bool :=
  match ms with
  | none => true
  | some m => headerMeetsMinScore line m

/-- Split a byte string into its lines, each keeping its trailing newline
(the way Python iterates a binary stream line by line). -/
def splitLinesKeep : List Nat → List (List Nat)
  | [] => []
  | c :: rest =>
    if c == 10 then [10] :: splitLinesKeep rest
    else
      match splitLinesKeep rest with
      | [] => [[c]]
      | l :: ls => (c :: l) :: ls

/-- Fuelled worker for `splitOnMarker`; the fuel is always at least the length
of the list, so the fallback second equation is never reached. -/
def splitOnMarkerAux : Nat → List Nat → List (List Nat)
  | _, [] => [[]]
  | 0, l => [l]
  | fuel + 1, c :: rest =>
    if marker.isPrefixOf (c :: rest) then
      [] :: splitOnMarkerAux fuel (rest.drop 5)
    else
      match splitOnMarkerAux fuel rest with
      | [] => [[c]]
      | p :: ps => (c :: p) :: ps

/-- Python `content.split(b"chain ")`: split on non-overlapping occurrences of
the marker, scanning left to right. -/
def splitOnMarker (l : List Nat) : List (List Nat) :=
  splitOnMarkerAux l.length l

/-- The filter applied to a candidate chunk by `_iter_chunks_from_bytes`:
with a min score, inspect the first line (`chunk.split(b"\x0a", 1)[0]`) of the
already-stripped chunk. -/
def keepChunk (ms : Option Int) (chunk : List Nat) : Bool :=
  match ms with
  | none => true
  | some m => headerMeetsMinScore (chunk.takeWhile (fun c => c != 10)) m

/-- Body of the loop of `_iter_chunks_from_bytes` over `parts[1:]`:
re-attach the marker, strip, skip empty chunks, apply the score filter. -/
def processParts (ms : Option Int) (parts : List (List Nat)) : List (List Nat) :=
  parts.filterMap (fun part =>
    if pyStrip (marker ++ part) = [] then none
    else if keepChunk ms (pyStrip (marker ++ part)) then some (pyStrip (marker ++ part))
    else none)

/-- `_iter_chunks_from_bytes`: split the whole content on the marker and
re-assemble, strip and filter each chunk after the first separator. -/
def iterChunksFromBytes (content : List Nat) (ms : Option Int) : List (List Nat) :=
  match splitOnMarker content with
  | [] => []
  | _ :: parts => processParts ms parts

/-- The loop of `_iter_chunks_from_stream`: `current` is the list of buffered
lines of the open chunk (empty = no chunk open), `ok` is `header_score_ok`. -/
def streamGo (ms : Option Int) : List (List Nat) → List (List Nat) → Bool → List (List Nat)
  | [], current, ok =>
    if !current.isEmpty && ok then [pyStrip current.flatten] else []
  | line :: rest, current, ok =>
    if marker.isPrefixOf line then
      (if !current.isEmpty && ok then [pyStrip current.flatten] else []) ++
        streamGo ms rest [line] (okOf ms line)
    else
      streamGo ms rest (if current.isEmpty then current else current ++ [line]) ok

/-- `_iter_chunks_from_stream`, applied to the lines of the input. -/
def iterChunksFromStream (lines : List (List Nat)) (ms : Option Int) : List (List Nat) :=
  streamGo ms lines [] true

/-- Worker of `_parse_chunks_in_batches`: accumulate chunks into `batch`,
flushing whenever the batch reaches `maxPerCall`, and flush the remainder at
the end.  Returns the list of batches handed to the native parser, in order. -/
def batchChunksAux (maxPerCall : Nat) : List (List Nat) → List (List Nat) → List (List (List Nat))
  | [], batch => if batch.isEmpty then [] else [batch]
  | c :: rest, batch =>
    let b := batch ++ [c]
    if maxPerCall ≤ b.length then b :: batchChunksAux maxPerCall rest []
    else batchChunksAux maxPerCall rest b

/-- The sequence of batches submitted by `_parse_chunks_in_batches`. -/
def batchChunks (chunks : List (List Nat)) (maxPerCall : Nat) : List (List (List Nat)) :=
  batchChunksAux maxPerCall chunks []

/-- `_parse_chunks_in_batches`, with the native `parse_many_chain_chunks`
abstracted as `parser`; results of all batch calls are concatenated in order.
The two call forms (with and without `min_score`) mirror the Python code. -/
def parseChunksInBatches {R : Type} (parser : List (List Nat) → Option Int → List R)
    (chunks : List (List Nat)) (maxPerCall : Nat) (minScore : Option Int) : List R :=
  ((batchChunks chunks maxPerCall).map (fun b =>
    match minScore with
    | some m => parser b (some m)
    | none => parser b none)).flatten

/-- The internal batch size chosen by `read_chain_file`. -/
def MAX_CHUNKS_PER_CALL : Nat := 500000

/-- Modelled from the spec: the native Record Parser's hard per-call capacity
limit (1,000,000 chunks); the `_chainparser` C extension implementing it is
not part of the Python sources. -/
def PARSER_HARD_CAP : Nat := 1000000

/-! ### Alignment records and score-based ranking -/

/-- A parsed alignment record, reduced to the two fields used by
`sort_alignments_by_score`. -/
structure GenomeAlignment where
  chain_id : Int
  score : Int
deriving DecidableEq

/-- `GenomeAlignmentsCollection`: ordered container of parsed records. -/
structure GenomeAlignmentsCollection where
  alignments : List GenomeAlignment
deriving DecidableEq

/-- The descending-score ordering used by the ranking: `p` may precede `q`
when `p`'s score is at least `q`'s. -/
def scoreGE (p q : Int × Int) : Prop := q.2 ≤ p.2

instance : DecidableRel scoreGE := fun p q => inferInstanceAs (Decidable (q.2 ≤ p.2))

instance : IsTotal (Int × Int) scoreGE := ⟨fun p q => le_total q.2 p.2⟩

instance : IsTrans (Int × Int) scoreGE := ⟨fun _ _ _ h1 h2 => le_trans h2 h1⟩

/-- Python slice `l[:m]` for an arbitrary (possibly negative) `m`. -/
def pySlice (l : List (Int × Int)) (m : Int) : List (Int × Int) :=
  if 0 ≤ m then l.take m.toNat else l.take (l.length - (-m).toNat)

/-- `sort_alignments_by_score`: build `(chain_id, score)` tuples, stable-sort
them by score descending (Python `sorted(..., key=score, reverse=True)`), and
slice to `max_elems` if provided. -/
def sortAlignmentsByScore (c : GenomeAlignmentsCollection) (maxElems : Option Int) :
    List (Int × Int) :=
  let scoreTuples := c.alignments.map (fun a => (a.chain_id, a.score))
  let sortedTuples := List.insertionSort scoreGE scoreTuples
  match maxElems with
  | none => sortedTuples
  | some m => pySlice sortedTuples m

/-! ### Configuration surface -/

/-- The mutable configuration state of `PyrionConfig` (logging state reduced
to the fields the setters touch; numeric log levels use the stdlib values
DEBUG = 10, INFO = 20, WARNING = 30, ERROR = 40, CRITICAL = 50). -/
structure PyrionConfig where
  available_cores : Nat
  max_cores : Nat
  min_items_for_parallel : Nat
  logger_configured : Bool
  log_level : Nat
deriving DecidableEq

/-- The `max_cores` setter: validation errors are raised before any field is
assigned; the returned pair is (next state, optional error). -/
def setMaxCores (c : PyrionConfig) (value : Int) : PyrionConfig × Option String :=
  if value < 0 then (c, some "max_cores must be non-negative")
  else if (c.available_cores : Int) < value then (c, some "max_cores cannot exceed available cores")
  else ({ c with max_cores := value.toNat }, none)

/-- The `min_items_for_parallel` setter. -/
def setMinItemsForParallel (c : PyrionConfig) (value : Int) : PyrionConfig × Option String :=
  if value < 0 then (c, some "min_items_for_parallel must be non-negative")
  else ({ c with min_items_for_parallel := value.toNat }, none)

/-- The `level_map` dictionary of `set_log_level`. -/
def levelMap : List (String × Nat) :=
  [("DEBUG", 10), ("INFO", 20), ("WARNING", 30), ("ERROR", 40), ("CRITICAL", 50)]

/-- Python `str.upper()` restricted to ASCII strings. -/
def pyUpper (s : String) : String := s.map Char.toUpper

/-- `set_log_level` called with a string: uppercase the argument, reject it if
it is not a key of `level_map` (before any state is touched), otherwise record
the level and mark the logger configured. -/
def setLogLevelStr (c : PyrionConfig) (level : String) : PyrionConfig × Option String :=
  match levelMap.lookup (pyUpper level) with
  | none => (c, some "Invalid log level")
  | some n => ({ c with logger_configured := true, log_level := n }, none)

/-! ### Projection engine -/

/-- Modelled from the spec: an alignment block `(t_start, t_end, q_start,
q_end)` of half-open intervals; the Projection Engine is specified in §4.5 of
the spec and its implementation is not among the Python sources. -/
structure AlignmentBlock where
  t_start : Nat
  t_end : Nat
  q_start : Nat
  q_end : Nat
deriving DecidableEq

/-- Modelled from the spec: project one target-axis interval `[s, e)` through
a block list — for each block, clip the interval to the block's target range
and map the non-empty clipped part linearly into query coordinates; gap
portions are not emitted, and blocks are visited in list (ascending target)
order. -/
def projectInterval (blocks : List AlignmentBlock) (s e : Nat) : List (Nat × Nat) :=
  blocks.filterMap (fun b =>
    let cs := max s b.t_start
    let ce := min e b.t_end
    if cs < ce then some (b.q_start + (cs - b.t_start), b.q_start + (ce - b.t_start))
    else none)

/-! ### Predicates used by the tokenizer equivalence proofs -/

/-- No occurrence of the header marker anywhere in `t`. -/
def NoMarkerIn (t : List Nat) : Prop := ∀ i, ¬ marker <+: t.drop i

/-- The header marker occurs in the line at position 0 only, if at all. -/
def MarkerOnlyAtStart (l : List Nat) : Prop :=
  ∀ i < l.length, 0 < i → marker.isPrefixOf (l.drop i) = false

instance decidableMarkerOnlyAtStart (l : List Nat) : Decidable (MarkerOnlyAtStart l) := by
  unfold MarkerOnlyAtStart
  infer_instance

/-- Every line except possibly the last ends with a newline byte. -/
def LinesShape : List (List Nat) → Prop
  | [] => True
  | [_] => True
  | l :: m :: rest => l.getLast? = some 10 ∧ LinesShape (m :: rest)

/-! ### Ranking lemmas -/

/-- Inserting a tuple with `orderedInsert scoreGE` puts it in front of every
buffered tuple with the same score, and leaves the relative order of the other
tuples unchanged: filtering by any fixed score commutes with the insertion. -/
theorem filter_orderedInsert_score (x : Int × Int) (l : List (Int × Int)) (s : Int) :
    (List.orderedInsert scoreGE x l).filter (fun q => q.2 == s) =
      if x.2 == s then x :: l.filter (fun q => q.2 == s)
      else l.filter (fun q => q.2 == s) := by
  induction l with
  | nil =>
    by_cases hx : (x.2 == s) = true <;> simp [List.orderedInsert, List.filter_cons, hx]
  | cons y ys ih =>
    by_cases hr : scoreGE x y
    · simp only [List.orderedInsert, if_pos hr]
      by_cases hx : (x.2 == s) = true <;> by_cases hy : (y.2 == s) = true <;>
        simp [List.filter_cons, hx, hy]
    · have hxy : x.2 < y.2 := lt_of_not_le hr
      simp only [List.orderedInsert, if_neg hr, List.filter_cons, ih]
      by_cases hx : (x.2 == s) = true
      · have hy2 : ¬ ((y.2 == s) = true) := by
          have hxs : x.2 = s := beq_iff_eq.mp hx
          simp only [beq_iff_eq]
          omega
        simp [hx, hy2]
      · simp [hx]

/-- Stability of the insertion sort with respect to the score filter. -/
theorem filter_insertionSort_score (l : List (Int × Int)) (s : Int) :
    (List.insertionSort scoreGE l).filter (fun q => q.2 == s) =
      l.filter (fun q => q.2 == s) := by
  induction l with
  | nil => rfl
  | cons x xs ih =>
    simp only [List.insertionSort, filter_orderedInsert_score, List.filter]
    by_cases hx : x.2 == s <;> simp [hx, ih]

end Pyrion

namespace Pyrion

/-! ### Claim theorems: projection, header filter, batching, ranking, config -/

/-- Claim C4: with blocks [(100,200,1000,1100), (300,400,1200,1300)], the
projection maps [150,180) to [(1050,1080)], [350,380) to [(1250,1280)],
[190,210) to [(1090,1100)] (only the block-covered part of the gap-spanning
interval), and [220,280) (inside the gap) to the empty sequence. -/
theorem c4_projection_scenario :
    projectInterval [⟨100, 200, 1000, 1100⟩, ⟨300, 400, 1200, 1300⟩] 150 180 = [(1050, 1080)] ∧
    projectInterval [⟨100, 200, 1000, 1100⟩, ⟨300, 400, 1200, 1300⟩] 350 380 = [(1250, 1280)] ∧
    projectInterval [⟨100, 200, 1000, 1100⟩, ⟨300, 400, 1200, 1300⟩] 190 210 = [(1090, 1100)] ∧
    projectInterval [⟨100, 200, 1000, 1100⟩, ⟨300, 400, 1200, 1300⟩] 220 280 = [] := by
  refine ⟨?_, ?_, ?_, ?_⟩ <;> rfl

/-- Claim C2: `_header_meets_min_score` returns `False` (the chunk is dropped)
exactly when the second whitespace-separated field of the header line parses
as an integer strictly below the minimum score; a missing or unparseable
score field always keeps the chunk. -/
theorem c2_header_filter (line : List Nat) (m : Int) :
    headerMeetsMinScore line m = false ↔
      ∃ tok v, (pySplit line).get? 1 = some tok ∧ parseIntTok tok = some v ∧ v < m := by
  unfold headerMeetsMinScore
  cases hp : pySplit line with
  | nil => simp
  | cons a t =>
    cases t with
    | nil => simp
    | cons b t2 =>
      simp only [List.get?_eq_getElem?, List.getElem?_cons_succ, List.getElem?_cons_zero]
      cases hv : parseIntTok b with
      | none =>
        constructor
        · intro h
          exact Bool.noConfusion h
        · rintro ⟨tok, w, htok, hw, hlt⟩
          rw [Option.some_inj] at htok
          rw [← htok, hv] at hw
          exact Option.noConfusion hw
      | some v =>
        constructor
        · intro h
          exact ⟨b, v, rfl, hv, not_le.mp (of_decide_eq_false h)⟩
        · rintro ⟨tok, w, htok, hw, hlt⟩
          rw [Option.some_inj] at htok
          subst htok
          rw [hv, Option.some_inj] at hw
          subst hw
          exact decide_eq_false (not_le.mpr hlt)

/-- Every batch accumulated by `batchChunksAux` stays within `maxPerCall`,
provided the running batch starts strictly below the limit. -/
theorem batchChunksAux_sizes (maxN : Nat) :
    ∀ (chunks batch : List (List Nat)), batch.length < maxN →
      ∀ b ∈ batchChunksAux maxN chunks batch, b.length ≤ maxN := by
  intro chunks
  induction chunks with
  | nil =>
    intro batch hlt b hb
    simp only [batchChunksAux] at hb
    split at hb
    · simp at hb
    · simp at hb
      subst hb
      exact le_of_lt hlt
  | cons c rest ih =>
    intro batch hlt b hb
    simp only [batchChunksAux] at hb
    split at hb
    · rcases List.mem_cons.mp hb with h | h
      · subst h
        simp only [List.length_append, List.length_cons, List.length_nil]
        omega
      · exact ih [] (by simpa using Nat.lt_of_le_of_lt (Nat.zero_le _) hlt) b h
    · rename_i hle
      have : (batch ++ [c]).length < maxN := lt_of_not_le hle
      exact ih (batch ++ [c]) this b hb

/-- Claim C3: every batch handed to the native parser by
`_parse_chunks_in_batches` has at most `maxN` chunks (for any `maxN ≥ 1`),
and the batch size `read_chain_file` configures (500000) is strictly below
the native parser's hard per-call capacity (1000000). -/
theorem c3_batch_bound (chunks : List (List Nat)) (maxN : Nat) (hmax : 1 ≤ maxN) :
    (∀ b ∈ batchChunks chunks maxN, b.length ≤ maxN) ∧
      MAX_CHUNKS_PER_CALL < PARSER_HARD_CAP := by
  constructor
  · exact batchChunksAux_sizes maxN chunks [] (by simpa using hmax)
  · decide

/-- Witness for C3 at a concrete chunk list and batch size. -/
theorem c3_batch_bound_witness :
    1 ≤ 2 ∧ ((∀ b ∈ batchChunks [[0], [1], [2]] 2, b.length ≤ 2) ∧
      MAX_CHUNKS_PER_CALL < PARSER_HARD_CAP) :=
  ⟨by decide, c3_batch_bound [[0], [1], [2]] 2 (by decide)⟩

/-- Flattening the batches restores the chunk sequence. -/
theorem flatten_batchChunksAux (maxN : Nat) :
    ∀ (chunks batch : List (List Nat)),
      (batchChunksAux maxN chunks batch).flatten = batch ++ chunks := by
  intro chunks
  induction chunks with
  | nil =>
    intro batch
    simp only [batchChunksAux]
    split
    · rename_i h
      simp [List.isEmpty_iff.mp h]
    · simp
  | cons c rest ih =>
    intro batch
    simp only [batchChunksAux]
    split
    · simp [ih]
    · simp [ih]

/-- A chunk-wise parser composed over any batching is the chunk-wise parser
of the flattened chunk list. -/
theorem parseChunksInBatches_chunkwise {R : Type} (g : Option Int → List Nat → List R)
    (chunks : List (List Nat)) (maxN : Nat) (ms : Option Int) :
    parseChunksInBatches (fun b m => (b.map (g m)).flatten) chunks maxN ms =
      (chunks.map (g ms)).flatten := by
  unfold parseChunksInBatches
  have hcollapse :
      ((batchChunks chunks maxN).map (fun b =>
        match ms with
        | some m => (b.map (g (some m))).flatten
        | none => (b.map (g none)).flatten)) =
      (batchChunks chunks maxN).map (fun b => (b.map (g ms)).flatten) := by
    cases ms <;> rfl
  rw [hcollapse]
  have : ∀ (L : List (List (List Nat))),
      (L.map (fun b => (b.map (g ms)).flatten)).flatten = ((L.flatten).map (g ms)).flatten := by
    intro L
    induction L with
    | nil => rfl
    | cons b L ih => simp [ih]
  rw [this, batchChunks, flatten_batchChunksAux, List.nil_append]

/-- Claim C5: with the native parser modelled as a pure chunk-wise function,
`_parse_chunks_in_batches` produces the same output for any two batch sizes
of at least 1 — batching does not change the parsed records or their order. -/
theorem c5_batching_invariance {R : Type} (g : Option Int → List Nat → List R)
    (chunks : List (List Nat)) (ms : Option Int) (B1 B2 : Nat)
    (_h1 : 1 ≤ B1) (_h2 : 1 ≤ B2) :
    parseChunksInBatches (fun b m => (b.map (g m)).flatten) chunks B1 ms =
      parseChunksInBatches (fun b m => (b.map (g m)).flatten) chunks B2 ms := by
  rw [parseChunksInBatches_chunkwise, parseChunksInBatches_chunkwise]

/-- Witness for C5 at a concrete parser, chunk list and batch sizes. -/
theorem c5_batching_invariance_witness :
    1 ≤ 1 ∧ 1 ≤ 2 ∧
      parseChunksInBatches (fun b m => (b.map ((fun _ c => [c.length]) m)).flatten)
          [[7], [8, 9], [10]] 1 none =
        parseChunksInBatches (fun b m => (b.map ((fun _ c => [c.length]) m)).flatten)
          [[7], [8, 9], [10]] 2 none :=
  ⟨by decide, by decide,
    c5_batching_invariance (fun _ c => [c.length]) [[7], [8, 9], [10]] none 1 2
      (by decide) (by decide)⟩

/-- Claim C7: the full ranking is a permutation of the `(chain_id, score)`
tuples, sorted so that scores never increase, and for every score value the
tied tuples appear in their original insertion order. -/
theorem c7_ranking_stable (c : GenomeAlignmentsCollection) :
    (sortAlignmentsByScore c none).Perm
        (c.alignments.map (fun a => (a.chain_id, a.score))) ∧
    List.Sorted scoreGE (sortAlignmentsByScore c none) ∧
    ∀ s : Int,
      (sortAlignmentsByScore c none).filter (fun q => q.2 == s) =
        (c.alignments.map (fun a => (a.chain_id, a.score))).filter (fun q => q.2 == s) := by
  refine ⟨List.perm_insertionSort scoreGE _, List.sorted_insertionSort scoreGE _, ?_⟩
  intro s
  exact filter_insertionSort_score _ s

/-- Length of the full ranking. -/
theorem length_sortAlignmentsByScore_none (c : GenomeAlignmentsCollection) :
    (sortAlignmentsByScore c none).length = c.alignments.length := by
  unfold sortAlignmentsByScore
  rw [(List.perm_insertionSort scoreGE
    (c.alignments.map (fun a => (a.chain_id, a.score)))).length_eq, List.length_map]

/-- Claim C8: with a non-negative limit `m`, the ranking operation returns
exactly the first `min m n` entries of the full ranking; in particular a
limit at least the collection size returns the full ranking. -/
theorem c8_limit_nonneg (c : GenomeAlignmentsCollection) (m : Int) (hm : 0 ≤ m) :
    sortAlignmentsByScore c (some m) = (sortAlignmentsByScore c none).take m.toNat ∧
    (sortAlignmentsByScore c (some m)).length = min m.toNat c.alignments.length ∧
    ((c.alignments.length : Int) ≤ m →
      sortAlignmentsByScore c (some m) = sortAlignmentsByScore c none) := by
  have htake : sortAlignmentsByScore c (some m) =
      (sortAlignmentsByScore c none).take m.toNat := by
    unfold sortAlignmentsByScore pySlice
    simp [hm]
  refine ⟨htake, ?_, ?_⟩
  · rw [htake, List.length_take, length_sortAlignmentsByScore_none]
  · intro hle
    rw [htake]
    apply List.take_of_length_le
    rw [length_sortAlignmentsByScore_none]
    exact (Int.le_toNat hm).mpr hle

/-- Witness for C8 at a concrete collection and limit. -/
theorem c8_limit_nonneg_witness :
    0 ≤ (2 : Int) ∧
      (sortAlignmentsByScore ⟨[⟨1, 5⟩, ⟨2, 9⟩, ⟨3, 5⟩]⟩ (some 2) =
          (sortAlignmentsByScore ⟨[⟨1, 5⟩, ⟨2, 9⟩, ⟨3, 5⟩]⟩ none).take (2 : Int).toNat ∧
        (sortAlignmentsByScore ⟨[⟨1, 5⟩, ⟨2, 9⟩, ⟨3, 5⟩]⟩ (some 2)).length =
          min (2 : Int).toNat ([⟨1, 5⟩, ⟨2, 9⟩, ⟨3, 5⟩] : List GenomeAlignment).length ∧
        ((([⟨1, 5⟩, ⟨2, 9⟩, ⟨3, 5⟩] : List GenomeAlignment).length : Int) ≤ 2 →
          sortAlignmentsByScore ⟨[⟨1, 5⟩, ⟨2, 9⟩, ⟨3, 5⟩]⟩ (some 2) =
            sortAlignmentsByScore ⟨[⟨1, 5⟩, ⟨2, 9⟩, ⟨3, 5⟩]⟩ none)) :=
  ⟨by decide, c8_limit_nonneg ⟨[⟨1, 5⟩, ⟨2, 9⟩, ⟨3, 5⟩]⟩ 2 (by decide)⟩

/-- Claim C10: a negative limit `m` neither raises nor returns the full
ranking — Python slice semantics keep all but the last `|m|` entries whenever
the collection has more than `|m|` records. -/
theorem c10_limit_negative (c : GenomeAlignmentsCollection) (m : Int) (hm : m < 0)
    (hlen : (-m).toNat < c.alignments.length) :
    sortAlignmentsByScore c (some m) =
      (sortAlignmentsByScore c none).take
        ((sortAlignmentsByScore c none).length - (-m).toNat) ∧
    (sortAlignmentsByScore c (some m)).length = c.alignments.length - (-m).toNat ∧
    (sortAlignmentsByScore c (some m)).length < (sortAlignmentsByScore c none).length := by
  have hneg : ¬ 0 ≤ m := not_le.mpr hm
  have htake : sortAlignmentsByScore c (some m) =
      (sortAlignmentsByScore c none).take
        ((sortAlignmentsByScore c none).length - (-m).toNat) := by
    unfold sortAlignmentsByScore pySlice
    simp [hneg]
  have hlen0 : (sortAlignmentsByScore c none).length = c.alignments.length :=
    length_sortAlignmentsByScore_none c
  refine ⟨htake, ?_, ?_⟩
  · rw [htake, List.length_take, hlen0]
    omega
  · rw [htake, List.length_take, hlen0]
    have hpos : 0 < (-m).toNat := by omega
    omega

/-- Witness for C10 at a concrete collection and negative limit. -/
theorem c10_limit_negative_witness :
    (-1 : Int) < 0 ∧ (-(-1 : Int)).toNat < ([⟨1, 5⟩, ⟨2, 9⟩, ⟨3, 5⟩] : List GenomeAlignment).length ∧
      (sortAlignmentsByScore ⟨[⟨1, 5⟩, ⟨2, 9⟩, ⟨3, 5⟩]⟩ (some (-1)) =
          (sortAlignmentsByScore ⟨[⟨1, 5⟩, ⟨2, 9⟩, ⟨3, 5⟩]⟩ none).take
            ((sortAlignmentsByScore ⟨[⟨1, 5⟩, ⟨2, 9⟩, ⟨3, 5⟩]⟩ none).length - (-(-1 : Int)).toNat) ∧
        (sortAlignmentsByScore ⟨[⟨1, 5⟩, ⟨2, 9⟩, ⟨3, 5⟩]⟩ (some (-1))).length =
          ([⟨1, 5⟩, ⟨2, 9⟩, ⟨3, 5⟩] : List GenomeAlignment).length - (-(-1 : Int)).toNat ∧
        (sortAlignmentsByScore ⟨[⟨1, 5⟩, ⟨2, 9⟩, ⟨3, 5⟩]⟩ (some (-1))).length <
          (sortAlignmentsByScore ⟨[⟨1, 5⟩, ⟨2, 9⟩, ⟨3, 5⟩]⟩ none).length) :=
  ⟨by decide, by decide,
    c10_limit_negative ⟨[⟨1, 5⟩, ⟨2, 9⟩, ⟨3, 5⟩]⟩ (-1) (by decide) (by decide)⟩

/-- Claim C9: each configuration setter rejects exactly the invalid inputs
(negative or above-capacity core counts, negative parallel thresholds,
strings that do not case-insensitively name a known log level), and a
rejected update leaves the configuration state exactly as it was. -/
theorem c9_config_validation (c : PyrionConfig) (v w : Int) (s : String) :
    ((setMaxCores c v).2.isSome = true ↔ (v < 0 ∨ (c.available_cores : Int) < v)) ∧
    (setMaxCores c v).1 =
      (if v < 0 ∨ (c.available_cores : Int) < v then c
       else { c with max_cores := v.toNat }) ∧
    ((setMinItemsForParallel c w).2.isSome = true ↔ w < 0) ∧
    (setMinItemsForParallel c w).1 =
      (if w < 0 then c else { c with min_items_for_parallel := w.toNat }) ∧
    ((setLogLevelStr c s).2.isSome = true ↔ pyUpper s ∉ levelMap.map Prod.fst) ∧
    (setLogLevelStr c s).1 =
      (match levelMap.lookup (pyUpper s) with
       | none => c
       | some n => { c with logger_configured := true, log_level := n }) := by
  refine ⟨?_, ?_, ?_, ?_, ?_, ?_⟩
  · unfold setMaxCores
    by_cases h1 : v < 0
    · simp [h1]
    · by_cases h2 : (c.available_cores : Int) < v <;> simp [h1, h2]
  · unfold setMaxCores
    by_cases h1 : v < 0
    · simp [h1]
    · by_cases h2 : (c.available_cores : Int) < v <;> simp [h1, h2]
  · unfold setMinItemsForParallel
    by_cases h1 : w < 0 <;> simp [h1]
  · unfold setMinItemsForParallel
    by_cases h1 : w < 0 <;> simp [h1]
  · unfold setLogLevelStr
    have hmem : pyUpper s ∈ levelMap.map Prod.fst ↔ (levelMap.lookup (pyUpper s)).isSome := by
      rw [List.lookup_isSome_iff]
      constructor
      · intro h
        rcases List.mem_map.mp h with ⟨p, hp, hfst⟩
        exact ⟨p, hp, by simp [hfst]⟩
      · rintro ⟨p, hp, hbeq⟩
        exact List.mem_map.mpr ⟨p, hp, (beq_iff_eq.mp hbeq).symm⟩
    cases hlk : levelMap.lookup (pyUpper s) with
    | none =>
      simp only [Option.isSome_some, true_iff]
      intro hin
      have hsome := hmem.mp hin
      rw [hlk] at hsome
      simp at hsome
    | some n =>
      simp only [Option.isSome_none, Bool.false_eq_true, false_iff, not_not]
      exact hmem.mpr (by rw [hlk]; rfl)
  · unfold setLogLevelStr
    cases hlk : levelMap.lookup (pyUpper s) with
    | none => rfl
    | some n => rfl

end Pyrion

namespace Pyrion

/-! ### Tokenizer equivalence: marker facts and occurrence predicates -/

theorem marker_length : marker.length = 6 := rfl

/-- The marker has no self-overlap: no proper non-trivial border. -/
theorem marker_no_border : ∀ k < 6, 0 < k → marker.drop k ≠ marker.take (6 - k) := by
  decide

/-- No byte of the marker is a newline. -/
theorem marker_getElem_ne_nl : ∀ j, (hj : j < marker.length) → marker[j] ≠ 10 := by
  decide

theorem not_prefix_of_onlyAtStart {l : List Nat} (h : MarkerOnlyAtStart l) :
    ∀ i, 0 < i → ¬ marker <+: l.drop i := by
  intro i hi hpre
  by_cases hlen : i < l.length
  · have hfalse := h i hlen hi
    rw [← List.isPrefixOf_iff_prefix, hfalse] at hpre
    exact Bool.noConfusion hpre
  · rw [List.drop_eq_nil_of_le (le_of_not_lt hlen)] at hpre
    have hle := hpre.length_le
    rw [marker_length] at hle
    simp at hle

theorem noMarkerIn_of_not_hdr {l : List Nat} (h : MarkerOnlyAtStart l)
    (h0 : ¬ marker <+: l) : NoMarkerIn l := by
  intro i
  cases Nat.eq_zero_or_pos i with
  | inl hz => subst hz; simpa using h0
  | inr hp => exact not_prefix_of_onlyAtStart h i hp

theorem noMarkerIn_drop_of_onlyAtStart {l : List Nat} (h : MarkerOnlyAtStart l)
    {k : Nat} (hk : 0 < k) : NoMarkerIn (l.drop k) := by
  intro i
  rw [List.drop_drop]
  exact not_prefix_of_onlyAtStart h (k + i) (by omega)

/-- An occurrence starting inside `t` and fitting inside `t` contradicts
`NoMarkerIn t`, whatever follows `t`. -/
theorem not_prefix_append_of_inner {t ys : List Nat} {i : Nat} (hno : NoMarkerIn t)
    (hle : i + 6 ≤ t.length) : ¬ marker <+: (t ++ ys).drop i := by
  intro hpre
  rw [List.drop_append_of_le_length (by omega)] at hpre
  have h6 : marker.length ≤ (t.drop i).length := by
    rw [marker_length, List.length_drop]
    omega
  apply hno i
  rw [List.prefix_iff_eq_take] at hpre ⊢
  rw [List.take_append_of_le_length h6] at hpre
  exact hpre

/-- No occurrence of the marker can start strictly inside `t` when `t` is
followed by the marker itself: the marker has no border. -/
theorem not_prefix_span_marker {t ys : List Nat} {i : Nat} (hno : NoMarkerIn t)
    (hi : i < t.length) : ¬ marker <+: (t ++ (marker ++ ys)).drop i := by
  by_cases hle : i + 6 ≤ t.length
  · exact not_prefix_append_of_inner hno hle
  · intro hpre
    have hk1 : 0 < t.length - i := by omega
    have hk5 : t.length - i < 6 := by omega
    rw [List.drop_append_of_le_length (le_of_lt hi)] at hpre
    rw [List.prefix_iff_eq_take, marker_length] at hpre
    rw [List.take_append_eq_append_take] at hpre
    have hlen : (t.drop i).length = t.length - i := by simp
    rw [List.take_of_length_le (by omega)] at hpre
    rw [List.take_append_of_le_length (by rw [marker_length]; omega)] at hpre
    have hdrop := congrArg (List.drop (t.length - i)) hpre
    rw [List.drop_left' hlen] at hdrop
    rw [hlen] at hdrop
    exact marker_no_border _ hk5 hk1 hdrop

/-- No occurrence of the marker can start strictly inside a line ending with a
newline: the marker contains no newline byte. -/
theorem not_prefix_span_nl {l ys : List Nat} {i : Nat} (h10 : l.getLast? = some 10)
    (hno : NoMarkerIn l) (hi : i < l.length) : ¬ marker <+: (l ++ ys).drop i := by
  by_cases hle : i + 6 ≤ l.length
  · exact not_prefix_append_of_inner hno hle
  · intro hpre
    rw [List.drop_append_of_le_length (le_of_lt hi)] at hpre
    have hj : l.length - 1 - i < marker.length := by rw [marker_length]; omega
    have hj2 : l.length - 1 - i < (l.drop i).length := by
      rw [List.length_drop]
      omega
    have hval := hpre.getElem hj
    rw [List.getElem_append_left hj2] at hval
    rw [List.getElem_drop] at hval
    have hidx : i + (l.length - 1 - i) = l.length - 1 := by omega
    simp only [hidx] at hval
    have hlast : l[l.length - 1]? = some 10 := by
      rw [← List.getLast?_eq_getElem?]
      exact h10
    rw [List.getElem?_eq_getElem (by omega)] at hlast
    rw [Option.some_inj.mp hlast] at hval
    exact marker_getElem_ne_nl _ hj hval

theorem noMarkerIn_append {t l : List Nat} (h10 : t = [] ∨ t.getLast? = some 10)
    (ht : NoMarkerIn t) (hl : NoMarkerIn l) : NoMarkerIn (t ++ l) := by
  intro i
  by_cases hi : i < t.length
  · cases h10 with
    | inl hz =>
      subst hz
      simp at hi
    | inr hlast => exact not_prefix_span_nl hlast ht hi
  · rw [List.drop_append_eq_append_drop, List.drop_eq_nil_of_le (le_of_not_lt hi),
      List.nil_append]
    exact hl (i - t.length)

end Pyrion

namespace Pyrion

/-! ### splitOnMarker: fuel elimination and structural equations -/

theorem splitOnMarkerAux_fuel :
    ∀ (f1 : Nat), ∀ (f2 : Nat) (l : List Nat), l.length ≤ f1 → l.length ≤ f2 →
      splitOnMarkerAux f1 l = splitOnMarkerAux f2 l := by
  intro f1
  induction f1 with
  | zero =>
    intro f2 l h1 _
    have : l = [] := List.length_eq_zero.mp (Nat.le_zero.mp h1)
    subst this
    cases f2 <;> rfl
  | succ f ih =>
    intro f2 l h1 h2
    cases l with
    | nil => cases f2 <;> rfl
    | cons c rest =>
      cases f2 with
      | zero => simp at h2
      | succ f2 =>
        simp only [splitOnMarkerAux]
        split
        · rw [ih f2 (rest.drop 5) (by simp at h1 ⊢; omega) (by simp at h2 ⊢; omega)]
        · rw [ih f2 rest (by simp at h1 ⊢; omega) (by simp at h2 ⊢; omega)]

theorem splitOnMarker_nil : splitOnMarker [] = [[]] := rfl

theorem splitOnMarker_cons (c : Nat) (rest : List Nat) :
    splitOnMarker (c :: rest) =
      if marker.isPrefixOf (c :: rest) then
        [] :: splitOnMarker (rest.drop 5)
      else
        match splitOnMarker rest with
        | [] => [[c]]
        | p :: ps => (c :: p) :: ps := by
  show splitOnMarkerAux (rest.length + 1) (c :: rest) = _
  simp only [splitOnMarkerAux]
  split
  · rw [splitOnMarkerAux_fuel rest.length (rest.drop 5).length (rest.drop 5)
      (by simp) (le_refl _)]
    rfl
  · rfl

theorem splitOnMarker_ne_nil (l : List Nat) : splitOnMarker l ≠ [] := by
  cases l with
  | nil => exact List.cons_ne_nil _ _
  | cons c rest =>
    rw [splitOnMarker_cons]
    split
    · exact List.cons_ne_nil _ _
    · split <;> exact List.cons_ne_nil _ _

theorem marker_isPrefixOf_append (ys : List Nat) : marker.isPrefixOf (marker ++ ys) = true := by
  rw [List.isPrefixOf_iff_prefix]
  exact List.prefix_append _ _

theorem splitOnMarker_marker_append (ys : List Nat) :
    splitOnMarker (marker ++ ys) = [] :: splitOnMarker ys := by
  have h : marker ++ ys = 99 :: ([104, 97, 105, 110, 32] ++ ys) := rfl
  rw [h, splitOnMarker_cons, if_pos (by rw [← h]; exact marker_isPrefixOf_append ys)]
  rfl

theorem splitOnMarker_nomarker (t : List Nat) (h : NoMarkerIn t) : splitOnMarker t = [t] := by
  induction t with
  | nil => rfl
  | cons c rest ih =>
    rw [splitOnMarker_cons]
    rw [if_neg ?hc]
    case hc =>
      intro hpre
      rw [List.isPrefixOf_iff_prefix] at hpre
      exact h 0 (by simpa using hpre)
    rw [ih (fun i => by simpa using h (i + 1))]

theorem splitOnMarker_append_left (xs ys : List Nat)
    (h : ∀ i, i < xs.length → ¬ marker <+: (xs ++ ys).drop i) :
    splitOnMarker (xs ++ ys) =
      (xs ++ (splitOnMarker ys).headI) :: (splitOnMarker ys).tail := by
  induction xs with
  | nil =>
    cases hys : splitOnMarker ys with
    | nil => exact absurd hys (splitOnMarker_ne_nil ys)
    | cons p ps => simp [hys]
  | cons c xs ih =>
    rw [List.cons_append, splitOnMarker_cons]
    rw [if_neg ?hc]
    case hc =>
      intro hpre
      rw [List.isPrefixOf_iff_prefix] at hpre
      exact h 0 (by simp) (by simpa using hpre)
    rw [ih (fun i hi => by
      have := h (i + 1) (by simpa using Nat.succ_lt_succ hi)
      simpa using this)]
    simp

end Pyrion

namespace Pyrion

/-! ### splitLinesKeep: line decomposition facts -/

theorem LinesShape_of_cons {x : List Nat} {xs : List (List Nat)} (h : LinesShape (x :: xs)) :
    LinesShape xs := by
  cases xs with
  | nil => trivial
  | cons y ys => exact h.2

theorem linesShape_suffix : ∀ (as bs : List (List Nat)), LinesShape (as ++ bs) → LinesShape bs := by
  intro as
  induction as with
  | nil => intro bs h; exact h
  | cons a as ih => intro bs h; exact ih bs (LinesShape_of_cons h)

theorem linesShape_inner : ∀ (as bs : List (List Nat)), LinesShape (as ++ bs) → bs ≠ [] →
    ∀ a ∈ as, a.getLast? = some 10 := by
  intro as
  induction as with
  | nil =>
    intro bs _ _ a ha
    cases ha
  | cons x as ih =>
    intro bs h hne a ha
    have hcons : ∃ m r, as ++ bs = m :: r := by
      cases hbs : as ++ bs with
      | nil =>
        rcases List.append_eq_nil.mp hbs with ⟨_, h2⟩
        exact absurd h2 hne
      | cons m r => exact ⟨m, r, rfl⟩
    rcases hcons with ⟨m, r, hmr⟩
    rw [List.cons_append, hmr] at h
    have hx : x.getLast? = some 10 ∧ LinesShape (m :: r) := h
    rcases List.mem_cons.mp ha with rfl | hmem
    · exact hx.1
    · exact ih bs (by rw [hmr]; exact hx.2) hne a hmem

theorem splitLinesKeep_ne_nil {c : List Nat} (h : c ≠ []) : splitLinesKeep c ≠ [] := by
  cases c with
  | nil => exact absurd rfl h
  | cons c0 rest =>
    simp only [splitLinesKeep]
    split
    · exact List.cons_ne_nil _ _
    · split <;> exact List.cons_ne_nil _ _

theorem splitLinesKeep_mem_ne_nil : ∀ (c : List Nat), ∀ l ∈ splitLinesKeep c, l ≠ [] := by
  intro c
  induction c with
  | nil =>
    intro l hl
    cases hl
  | cons c0 rest ih =>
    intro l hl
    simp only [splitLinesKeep] at hl
    split at hl
    · rcases List.mem_cons.mp hl with rfl | hmem
      · exact List.cons_ne_nil _ _
      · exact ih l hmem
    · split at hl
      · rcases List.mem_cons.mp hl with rfl | hmem
        · exact List.cons_ne_nil _ _
        · cases hmem
      · rename_i l0 ls0 hcons
        rcases List.mem_cons.mp hl with rfl | hmem
        · exact List.cons_ne_nil _ _
        · exact ih l (by rw [hcons]; exact List.mem_cons_of_mem _ hmem)

theorem flatten_splitLinesKeep : ∀ (c : List Nat), (splitLinesKeep c).flatten = c := by
  intro c
  induction c with
  | nil => rfl
  | cons c0 rest ih =>
    simp only [splitLinesKeep]
    split
    · rename_i h10
      have hc0 : c0 = 10 := beq_iff_eq.mp h10
      subst hc0
      simp [ih]
    · split
      · rename_i hnil
        have hrest : rest = [] := by
          by_contra hne
          exact splitLinesKeep_ne_nil hne hnil
        subst hrest
        rfl
      · rename_i l0 ls0 hcons
        have hres : l0 ++ ls0.flatten = rest := by
          have h2 := ih
          rw [hcons] at h2
          simpa using h2
        simp [hres]

theorem splitLinesKeep_no_inner_nl :
    ∀ (c : List Nat), ∀ l ∈ splitLinesKeep c, ∀ x ∈ l.dropLast, x ≠ 10 := by
  intro c
  induction c with
  | nil =>
    intro l hl
    cases hl
  | cons c0 rest ih =>
    intro l hl
    simp only [splitLinesKeep] at hl
    split at hl
    · rcases List.mem_cons.mp hl with rfl | hmem
      · intro x hx
        cases hx
      · exact ih l hmem
    · rename_i h10
      have hc0 : c0 ≠ 10 := by
        intro heq
        subst heq
        simp at h10
      split at hl
      · rcases List.mem_cons.mp hl with rfl | hmem
        · intro x hx
          cases hx
        · cases hmem
      · rename_i l0 ls0 hcons
        rcases List.mem_cons.mp hl with rfl | hmem
        · have hl0 : l0 ≠ [] :=
            splitLinesKeep_mem_ne_nil rest l0 (by rw [hcons]; exact List.mem_cons_self _ _)
          rw [List.dropLast_cons_of_ne_nil hl0]
          intro x hx
          rcases List.mem_cons.mp hx with rfl | hx2
          · exact hc0
          · exact ih l0 (by rw [hcons]; exact List.mem_cons_self _ _) x hx2
        · exact ih l (by rw [hcons]; exact List.mem_cons_of_mem _ hmem)

theorem splitLinesKeep_shape : ∀ (c : List Nat), LinesShape (splitLinesKeep c) := by
  intro c
  induction c with
  | nil => trivial
  | cons c0 rest ih =>
    simp only [splitLinesKeep]
    split
    · cases hcons : splitLinesKeep rest with
      | nil => trivial
      | cons m r =>
        refine ⟨rfl, ?_⟩
        rw [← hcons]
        exact ih
    · split
      · trivial
      · rename_i l0 ls0 hcons
        cases ls0 with
        | nil => trivial
        | cons m2 r2 =>
          have hsh : LinesShape (l0 :: m2 :: r2) := by
            rw [← hcons]
            exact ih
          refine ⟨?_, hsh.2⟩
          have hl0 : l0 ≠ [] :=
            splitLinesKeep_mem_ne_nil rest l0 (by rw [hcons]; exact List.mem_cons_self _ _)
          cases l0 with
          | nil => exact absurd rfl hl0
          | cons a as =>
            rw [List.getLast?_cons_cons]
            exact hsh.1

end Pyrion

namespace Pyrion

/-! ### pyStrip and pySplit: tokens of a stripped chunk's first line -/

theorem stripRight_spec (x : List Nat) :
    x = stripRight x ++ (x.reverse.takeWhile isWSb).reverse ∧
      ∀ c ∈ (x.reverse.takeWhile isWSb).reverse, isWSb c = true := by
  constructor
  · rw [stripRight, ← List.reverse_append, List.takeWhile_append_dropWhile,
      List.reverse_reverse]
  · intro c hc
    rw [List.mem_reverse] at hc
    exact List.mem_takeWhile_imp hc

theorem stripRight_pre (x : List Nat) : stripRight x <+: x :=
  ⟨(x.reverse.takeWhile isWSb).reverse, ((stripRight_spec x).1).symm⟩

theorem pyStrip_marker (t : List Nat) : pyStrip (marker ++ t) = stripRight (marker ++ t) := rfl

theorem pyStrip_marker_ne_nil (t : List Nat) : pyStrip (marker ++ t) ≠ [] := by
  rw [pyStrip_marker]
  intro hemp
  rw [stripRight, List.reverse_eq_nil_iff, List.dropWhile_eq_nil_iff] at hemp
  have h99 := hemp 99 (by
    rw [List.mem_reverse]
    rw [show marker ++ t = 99 :: ([104, 97, 105, 110, 32] ++ t) from rfl]
    exact List.mem_cons_self _ _)
  exact absurd h99 (by decide)

theorem pySplitAcc_allws : ∀ (w : List Nat), (∀ c ∈ w, isWSb c = true) → ∀ acc,
    pySplitAcc w acc = emitTok acc := by
  intro w
  induction w with
  | nil => intro _ acc; rfl
  | cons c w ih =>
    intro hw acc
    simp only [pySplitAcc, if_pos (hw c (List.mem_cons_self _ _))]
    rw [ih (fun x hx => hw x (List.mem_cons_of_mem _ hx)) []]
    simp [emitTok]

theorem pySplitAcc_append_ws : ∀ (a w : List Nat),
    (∀ c ∈ w, isWSb c = true) → ∀ acc, pySplitAcc (a ++ w) acc = pySplitAcc a acc := by
  intro a
  induction a with
  | nil =>
    intro w hw acc
    rw [List.nil_append, pySplitAcc_allws w hw acc]
    rfl
  | cons c a ih =>
    intro w hw acc
    rw [List.cons_append]
    simp only [pySplitAcc]
    split
    · rw [ih w hw []]
    · rw [ih w hw (c :: acc)]

theorem pySplit_append_ws (a w : List Nat) (hw : ∀ c ∈ w, isWSb c = true) :
    pySplit (a ++ w) = pySplit a :=
  pySplitAcc_append_ws a w hw []

theorem takeWhile_ne10_of_no10 : ∀ (A : List Nat), (10:Nat) ∉ A →
    A.takeWhile (fun c => c != 10) = A := by
  intro A
  induction A with
  | nil => intro _; rfl
  | cons a t ih =>
    intro h
    have ha : a ≠ 10 := fun heq => h (heq ▸ List.mem_cons_self _ _)
    rw [List.takeWhile_cons, if_pos (by simpa using ha)]
    rw [ih (fun hm => h (List.mem_cons_of_mem _ hm))]

theorem takeWhile_ne10_append : ∀ (A u : List Nat), (10:Nat) ∉ A →
    (A ++ 10 :: u).takeWhile (fun c => c != 10) = A := by
  intro A
  induction A with
  | nil =>
    intro u _
    rw [List.nil_append, List.takeWhile_cons, if_neg (by simp)]
  | cons a t ih =>
    intro u h
    have ha : a ≠ 10 := fun heq => h (heq ▸ List.mem_cons_self _ _)
    rw [List.cons_append, List.takeWhile_cons, if_pos (by simpa using ha)]
    rw [ih u (fun hm => h (List.mem_cons_of_mem _ hm))]

theorem nl_not_mem_marker_append {u : List Nat} (hu : (10:Nat) ∉ u) :
    (10:Nat) ∉ marker ++ u := by
  intro hmem
  rcases List.mem_append.mp hmem with h1 | h2
  · exact absurd h1 (by decide)
  · exact hu h2

/-- First lines agree after stripping: the chunk whose header line ends at the
first newline.  Case of a chunk with a newline after the header. -/
theorem pySplit_strip_firstline_nl (u t2 : List Nat) (hu : (10:Nat) ∉ u) :
    pySplit ((pyStrip ((marker ++ u) ++ 10 :: t2)).takeWhile (fun c => c != 10)) =
      pySplit (marker ++ u) := by
  have hA10 : (10:Nat) ∉ marker ++ u := nl_not_mem_marker_append hu
  have hx : (marker ++ u) ++ 10 :: t2 = marker ++ (u ++ 10 :: t2) := by
    rw [List.append_assoc]
  rw [hx, pyStrip_marker, ← hx]
  have hspec := stripRight_spec ((marker ++ u) ++ 10 :: t2)
  set S := stripRight ((marker ++ u) ++ 10 :: t2) with hSdef
  set W := (((marker ++ u) ++ 10 :: t2).reverse.takeWhile isWSb).reverse with hWdef
  have hSpre : S <+: (marker ++ u) ++ 10 :: t2 := ⟨W, hspec.1.symm⟩
  by_cases hlen : (marker ++ u).length < S.length
  · have hS_eq : S = (marker ++ u) ++ (10 :: t2).take (S.length - (marker ++ u).length) := by
      rw [List.prefix_iff_eq_take] at hSpre
      conv_lhs => rw [hSpre]
      rw [List.take_append_eq_append_take, List.take_of_length_le (by omega)]
    obtain ⟨j, hj⟩ : ∃ j, S.length - (marker ++ u).length = j + 1 :=
      ⟨S.length - (marker ++ u).length - 1, by omega⟩
    rw [hS_eq, hj, List.take_succ_cons, takeWhile_ne10_append _ _ hA10]
  · have hle : S.length ≤ (marker ++ u).length := le_of_not_lt hlen
    have hSA : S <+: marker ++ u :=
      List.prefix_of_prefix_length_le hSpre (List.prefix_append _ _) hle
    have hS10 : (10:Nat) ∉ S := fun hmem => hA10 (hSA.subset hmem)
    rw [takeWhile_ne10_of_no10 _ hS10]
    have hA_eq : marker ++ u = S ++ (marker ++ u).drop S.length := by
      rw [List.prefix_iff_eq_take] at hSA
      conv_lhs => rw [← List.take_append_drop S.length (marker ++ u)]
      rw [← hSA]
    have hws : ∀ c ∈ (marker ++ u).drop S.length, isWSb c = true := by
      intro c hc
      have hxdrop : ((marker ++ u) ++ 10 :: t2).drop S.length =
          (marker ++ u).drop S.length ++ 10 :: t2 :=
        List.drop_append_of_le_length hle
      have hcx : c ∈ ((marker ++ u) ++ 10 :: t2).drop S.length := by
        rw [hxdrop]
        exact List.mem_append_left _ hc
      have hdropx : ((marker ++ u) ++ 10 :: t2).drop S.length = W := by
        rw [hspec.1, List.drop_left]
      rw [hdropx] at hcx
      exact hspec.2 c hcx
    conv_rhs => rw [hA_eq]
    rw [pySplit_append_ws _ _ hws]

/-- Case of a single-line chunk (no newline at all). -/
theorem pySplit_strip_firstline_no_nl (u : List Nat) (hu : (10:Nat) ∉ u) :
    pySplit ((pyStrip (marker ++ u)).takeWhile (fun c => c != 10)) =
      pySplit (marker ++ u) := by
  rw [pyStrip_marker]
  have hA10 : (10:Nat) ∉ marker ++ u := nl_not_mem_marker_append hu
  have hS10 : (10:Nat) ∉ stripRight (marker ++ u) :=
    fun hm => hA10 ((stripRight_pre _).subset hm)
  rw [takeWhile_ne10_of_no10 _ hS10]
  have hspec := stripRight_spec (marker ++ u)
  conv_rhs => rw [hspec.1]
  rw [pySplit_append_ws _ _ hspec.2]

end Pyrion

namespace Pyrion

/-! ### The chunk-level score filter agrees with the stream header flag -/

theorem marker_append_drop (h : List Nat) (hpre : marker.isPrefixOf h = true) :
    marker ++ h.drop 6 = h := by
  rw [List.isPrefixOf_iff_prefix, List.prefix_iff_eq_take, marker_length] at hpre
  conv_rhs => rw [← List.take_append_drop 6 h]
  rw [← hpre]

theorem keepChunk_eq_okOf (ms : Option Int) (h : List Nat) (body : List (List Nat))
    (hpre : marker.isPrefixOf h = true)
    (h10i : ∀ x ∈ h.dropLast, x ≠ 10)
    (hsh : h.getLast? = some 10 ∨ body = []) :
    keepChunk ms (pyStrip ((h :: body).flatten)) = okOf ms h := by
  have hA : marker ++ h.drop 6 = h := marker_append_drop h hpre
  have hne : h ≠ [] := by
    intro hz
    rw [hz] at hpre
    exact Bool.noConfusion hpre
  cases ms with
  | none => rfl
  | some m =>
    show headerMeetsMinScore ((pyStrip ((h :: body).flatten)).takeWhile (fun c => c != 10)) m
        = headerMeetsMinScore h m
    suffices hsplit : pySplit ((pyStrip ((h :: body).flatten)).takeWhile (fun c => c != 10))
        = pySplit h by
      unfold headerMeetsMinScore
      rw [hsplit]
    by_cases hend : h.getLast? = some 10
    · have hD : h.dropLast ++ [10] = h :=
        List.dropLast_append_getLast? 10 (by rw [Option.mem_def]; exact hend)
      have hdtail : h.drop 6 ≠ [] := by
        intro hz
        rw [hz, List.append_nil] at hA
        rw [← hA] at hend
        exact absurd hend (by decide)
      have hdl : h.dropLast = marker ++ (h.drop 6).dropLast := by
        conv_lhs => rw [← hA]
        rw [List.dropLast_append_of_ne_nil _ hdtail]
      have hu10 : (10:Nat) ∉ (h.drop 6).dropLast := by
        intro hmem
        exact h10i 10 (by rw [hdl]; exact List.mem_append_right _ hmem) rfl
      have hform : (h :: body).flatten =
          (marker ++ (h.drop 6).dropLast) ++ 10 :: body.flatten := by
        rw [List.flatten_cons]
        conv_lhs => rw [← hD]
        rw [hdl, List.append_assoc, List.singleton_append]
      rw [hform, pySplit_strip_firstline_nl _ _ hu10]
      conv_rhs => rw [← hD, hdl]
      rw [pySplit_append_ws (marker ++ (h.drop 6).dropLast) [10] (by
        intro c hc
        rw [List.mem_singleton] at hc
        subst hc
        rfl)]
    · have hbody : body = [] := hsh.resolve_left hend
      subst hbody
      have h10 : (10:Nat) ∉ h := by
        intro hmem
        have hcat : h.dropLast ++ [h.getLast hne] = h := List.dropLast_append_getLast hne
        rw [← hcat] at hmem
        rcases List.mem_append.mp hmem with h1 | h2
        · exact h10i 10 h1 rfl
        · rw [List.mem_singleton] at h2
          apply hend
          rw [List.getLast?_eq_getLast h hne, ← h2]
      have hfl : (h :: ([] : List (List Nat))).flatten = h := by simp
      rw [hfl]
      conv_lhs => rw [← hA]
      rw [pySplit_strip_firstline_no_nl (h.drop 6)
        (fun hm => h10 (List.mem_of_mem_drop hm))]
      rw [hA]

theorem getLast?_drop_eq {l : List Nat} {k : Nat} (hne : l.drop k ≠ []) :
    (l.drop k).getLast? = l.getLast? := by
  conv_rhs => rw [← List.take_append_drop k l]
  rw [List.getLast?_append]
  cases hg : (l.drop k).getLast? with
  | none => exact absurd (List.getLast?_eq_none_iff.mp hg) hne
  | some a => rfl

theorem noMarkerIn_flatten_acc :
    ∀ (bs : List (List Nat)) (t : List Nat),
      NoMarkerIn t →
      (bs ≠ [] → t = [] ∨ t.getLast? = some 10) →
      (∀ b ∈ bs, NoMarkerIn b) →
      LinesShape bs →
      NoMarkerIn (t ++ bs.flatten) := by
  intro bs
  induction bs with
  | nil =>
    intro t ht _ _ _
    simpa using ht
  | cons b bs ih =>
    intro t ht hend hbs hshape
    rw [List.flatten_cons, ← List.append_assoc]
    apply ih (t ++ b)
    · exact noMarkerIn_append (hend (List.cons_ne_nil _ _)) ht (hbs b (List.mem_cons_self _ _))
    · intro hbsne
      right
      have hb10 : b.getLast? = some 10 := by
        cases bs with
        | nil => exact absurd rfl hbsne
        | cons b2 bs2 => exact hshape.1
      rw [List.getLast?_append, hb10]
      rfl
    · intro b2 hb2
      exact hbs b2 (List.mem_cons_of_mem _ hb2)
    · exact LinesShape_of_cons hshape

theorem processParts_cons (ms : Option Int) (part : List Nat) (parts : List (List Nat)) :
    processParts ms (part :: parts) =
      (if pyStrip (marker ++ part) = [] then []
       else if keepChunk ms (pyStrip (marker ++ part)) then [pyStrip (marker ++ part)]
       else []) ++ processParts ms parts := by
  by_cases h1 : pyStrip (marker ++ part) = []
  · simp [processParts, List.filterMap_cons, h1]
  · by_cases h2 : keepChunk ms (pyStrip (marker ++ part)) = true
    · simp [processParts, List.filterMap_cons, h1, h2]
    · simp [processParts, List.filterMap_cons, h1, h2]

/-- The bytes-mode emission of the currently open chunk coincides with the
stream-mode emission. -/
theorem emission_eq (ms : Option Int) (h : List Nat) (body : List (List Nat))
    (hpre : marker.isPrefixOf h = true)
    (h10i : ∀ x ∈ h.dropLast, x ≠ 10)
    (hsh : h.getLast? = some 10 ∨ body = []) :
    (if pyStrip (marker ++ (h.drop 6 ++ body.flatten)) = [] then []
     else if keepChunk ms (pyStrip (marker ++ (h.drop 6 ++ body.flatten))) then
       [pyStrip (marker ++ (h.drop 6 ++ body.flatten))]
     else []) =
      (if !(h :: body).isEmpty && okOf ms h then [pyStrip ((h :: body).flatten)] else []) := by
  have hA : marker ++ (h.drop 6 ++ body.flatten) = (h :: body).flatten := by
    rw [List.flatten_cons, ← List.append_assoc, marker_append_drop h hpre]
  have hne : pyStrip (marker ++ (h.drop 6 ++ body.flatten)) ≠ [] := pyStrip_marker_ne_nil _
  rw [if_neg hne]
  rw [hA, keepChunk_eq_okOf ms h body hpre h10i hsh]
  cases okOf ms h <;> simp

end Pyrion

namespace Pyrion

/-! ### Main induction: bytes mode tracks the stream loop -/

theorem linesShape_of_all_end10 : ∀ (bs : List (List Nat)),
    (∀ b ∈ bs, b.getLast? = some 10) → LinesShape bs := by
  intro bs
  induction bs with
  | nil => intro _; trivial
  | cons b bs2 ih =>
    intro hall
    cases bs2 with
    | nil => trivial
    | cons c cs =>
      exact ⟨hall b (List.mem_cons_self _ _),
        ih (fun x hx => hall x (List.mem_cons_of_mem _ hx))⟩

/-- With an open chunk `h :: body` (header line `h`, buffered body lines), the
bytes-mode processing of the remaining content equals the stream loop. -/
theorem processParts_eq_streamGo (ms : Option Int) :
    ∀ (lines : List (List Nat)), ∀ (body : List (List Nat)) (h : List Nat),
      marker.isPrefixOf h = true →
      (∀ l ∈ h :: (body ++ lines), MarkerOnlyAtStart l) →
      (∀ l ∈ h :: (body ++ lines), ∀ x ∈ l.dropLast, x ≠ 10) →
      LinesShape (h :: (body ++ lines)) →
      (∀ b ∈ body, marker.isPrefixOf b = false) →
      processParts ms (splitOnMarker ((h.drop 6 ++ body.flatten) ++ lines.flatten)) =
        streamGo ms lines (h :: body) (okOf ms h) := by
  intro lines
  induction lines with
  | nil =>
    intro body h hpre hmark h10 hshape hbody
    simp only [List.append_nil] at hmark h10 hshape
    have hsh : h.getLast? = some 10 ∨ body = [] := by
      by_cases hb : body = []
      · exact Or.inr hb
      · exact Or.inl (linesShape_inner [h] body hshape hb h (List.mem_cons_self _ _))
    have hnmt : NoMarkerIn (h.drop 6 ++ body.flatten) := by
      apply noMarkerIn_flatten_acc body (h.drop 6)
      · exact noMarkerIn_drop_of_onlyAtStart (hmark h (List.mem_cons_self _ _)) (by omega)
      · intro hbne
        have hh10 : h.getLast? = some 10 :=
          linesShape_inner [h] body hshape hbne h (List.mem_cons_self _ _)
        by_cases hd : h.drop 6 = []
        · exact Or.inl hd
        · exact Or.inr (by rw [getLast?_drop_eq hd]; exact hh10)
      · intro b hb
        apply noMarkerIn_of_not_hdr (hmark b (List.mem_cons_of_mem _ hb))
        intro hp
        rw [← List.isPrefixOf_iff_prefix, hbody b hb] at hp
        exact Bool.noConfusion hp
      · exact LinesShape_of_cons hshape
    rw [List.flatten_nil, List.append_nil, splitOnMarker_nomarker _ hnmt,
      processParts_cons]
    rw [emission_eq ms h body hpre (h10 h (List.mem_cons_self _ _)) hsh]
    simp [processParts, streamGo]
  | cons l rest ih =>
    intro body h hpre hmark h10 hshape hbody
    have hshape1 : LinesShape ((h :: body) ++ (l :: rest)) := hshape
    have hh10 : h.getLast? = some 10 :=
      linesShape_inner (h :: body) (l :: rest) hshape1 (List.cons_ne_nil _ _) h
        (List.mem_cons_self _ _)
    have hbody10 : ∀ b ∈ body, b.getLast? = some 10 := fun b hb =>
      linesShape_inner (h :: body) (l :: rest) hshape1 (List.cons_ne_nil _ _) b
        (List.mem_cons_of_mem _ hb)
    have hnmt : NoMarkerIn (h.drop 6 ++ body.flatten) := by
      apply noMarkerIn_flatten_acc body (h.drop 6)
      · exact noMarkerIn_drop_of_onlyAtStart (hmark h (List.mem_cons_self _ _)) (by omega)
      · intro _
        by_cases hd : h.drop 6 = []
        · exact Or.inl hd
        · exact Or.inr (by rw [getLast?_drop_eq hd]; exact hh10)
      · intro b hb
        apply noMarkerIn_of_not_hdr
          (hmark b (List.mem_cons_of_mem _ (List.mem_append_left _ hb)))
        intro hp
        rw [← List.isPrefixOf_iff_prefix, hbody b hb] at hp
        exact Bool.noConfusion hp
      · exact linesShape_of_all_end10 body hbody10
    by_cases hl : marker.isPrefixOf l = true
    · -- next line is a header: emit the open chunk, start a new one
      have hflat : (l :: rest).flatten = marker ++ (l.drop 6 ++ rest.flatten) := by
        rw [List.flatten_cons, ← List.append_assoc, marker_append_drop l hl]
      rw [hflat, splitOnMarker_append_left _ _
        (fun i hi => not_prefix_span_marker hnmt hi)]
      rw [splitOnMarker_marker_append]
      simp only [List.headI, List.tail_cons, List.append_nil]
      rw [processParts_cons]
      rw [emission_eq ms h body hpre (h10 h (List.mem_cons_self _ _)) (Or.inl hh10)]
      have hrec := ih [] l hl
        (by
          intro x hx
          simp only [List.nil_append] at hx
          exact hmark x (List.mem_cons_of_mem _ (List.mem_append_right _ hx)))
        (by
          intro x hx
          simp only [List.nil_append] at hx
          exact h10 x (List.mem_cons_of_mem _ (List.mem_append_right _ hx)))
        (by
          simp only [List.nil_append]
          exact linesShape_suffix (h :: body) (l :: rest) hshape1)
        (by intro b hb; cases hb)
      simp only [List.flatten_nil, List.append_nil, List.nil_append] at hrec
      rw [hrec]
      show _ = streamGo ms (l :: rest) (h :: body) (okOf ms h)
      simp only [streamGo, if_pos hl]
    · -- next line continues the open chunk
      have hlf : marker.isPrefixOf l = false := by
        cases hB : marker.isPrefixOf l
        · rfl
        · exact absurd hB hl
      have harr : (h.drop 6 ++ body.flatten) ++ (l :: rest).flatten =
          (h.drop 6 ++ (body ++ [l]).flatten) ++ rest.flatten := by
        simp [List.flatten_cons, List.flatten_append, List.append_assoc]
      have hlist : (body ++ [l]) ++ rest = body ++ l :: rest := by
        simp
      rw [harr]
      have hrec := ih (body ++ [l]) h hpre
        (by rw [hlist]; exact hmark)
        (by rw [hlist]; exact h10)
        (by rw [hlist]; exact hshape)
        (by
          intro b hb
          rcases List.mem_append.mp hb with hb1 | hb2
          · exact hbody b hb1
          · rw [List.mem_singleton] at hb2
            subst hb2
            exact hlf)
      rw [hrec]
      show _ = streamGo ms (l :: rest) (h :: body) (okOf ms h)
      simp only [streamGo, if_neg (by rw [hlf]; exact Bool.noConfusion : ¬ marker.isPrefixOf l = true)]
      simp only [List.isEmpty_cons, Bool.false_eq_true, if_false]
      rw [List.cons_append]

end Pyrion

namespace Pyrion

/-- Bytes mode over the flattened lines equals the stream loop started with no
open chunk. -/
theorem iterChunksFromBytes_flatten_eq (ms : Option Int) :
    ∀ (lines : List (List Nat)),
      (∀ l ∈ lines, MarkerOnlyAtStart l) →
      (∀ l ∈ lines, ∀ x ∈ l.dropLast, x ≠ 10) →
      LinesShape lines →
      iterChunksFromBytes lines.flatten ms = streamGo ms lines [] true := by
  intro lines
  induction lines with
  | nil =>
    intro _ _ _
    rfl
  | cons l rest ih =>
    intro hmark h10 hshape
    by_cases hl : marker.isPrefixOf l = true
    · have hflat : (l :: rest).flatten = marker ++ (l.drop 6 ++ rest.flatten) := by
        rw [List.flatten_cons, ← List.append_assoc, marker_append_drop l hl]
      rw [hflat]
      unfold iterChunksFromBytes
      rw [splitOnMarker_marker_append]
      have hrec := processParts_eq_streamGo ms rest [] l hl
        (by simpa using hmark)
        (by simpa using h10)
        (by simpa using hshape)
        (by intro b hb; cases hb)
      simp only [List.flatten_nil, List.append_nil, List.nil_append] at hrec
      show processParts ms (splitOnMarker (l.drop 6 ++ rest.flatten)) =
        streamGo ms (l :: rest) [] true
      rw [hrec]
      show _ = streamGo ms (l :: rest) [] true
      simp only [streamGo, if_pos hl]
      rfl
    · have hnol : NoMarkerIn l := by
        apply noMarkerIn_of_not_hdr (hmark l (List.mem_cons_self _ _))
        intro hp
        rw [← List.isPrefixOf_iff_prefix] at hp
        exact hl hp
      have hspan : ∀ i, i < l.length → ¬ marker <+: (l ++ rest.flatten).drop i := by
        intro i hi
        cases rest with
        | nil =>
          simp only [List.flatten_nil, List.append_nil]
          exact hnol i
        | cons r rs =>
          have hl10 : l.getLast? = some 10 := hshape.1
          exact not_prefix_span_nl hl10 hnol hi
      rw [List.flatten_cons]
      unfold iterChunksFromBytes
      rw [splitOnMarker_append_left _ _ hspan]
      have hrec := ih
        (fun x hx => hmark x (List.mem_cons_of_mem _ hx))
        (fun x hx => h10 x (List.mem_cons_of_mem _ hx))
        (LinesShape_of_cons hshape)
      unfold iterChunksFromBytes at hrec
      cases hsp : splitOnMarker rest.flatten with
      | nil => exact absurd hsp (splitOnMarker_ne_nil _)
      | cons p ps =>
        rw [hsp] at hrec
        have hrec2 : processParts ms ps = streamGo ms rest [] true := hrec
        simp only [hsp, List.headI, List.tail_cons]
        show processParts ms ps = streamGo ms (l :: rest) [] true
        rw [hrec2]
        show _ = streamGo ms (l :: rest) [] true
        simp only [streamGo, if_neg (show ¬ marker.isPrefixOf l = true from hl)]
        rfl

/-- Claim C1 (counterexample): on the byte content `b"xchain 1\x0a"` (the
marker occurs mid-line), the load-whole-then-split mode yields the chunk
`b"chain 1"` while the streaming mode yields nothing. -/
theorem c1_modes_counterexample :
    ¬ (iterChunksFromBytes [120, 99, 104, 97, 105, 110, 32, 49, 10] none =
        iterChunksFromStream (splitLinesKeep [120, 99, 104, 97, 105, 110, 32, 49, 10]) none) := by
  decide

/-- Claim C1 (amended): for every byte content in which the header marker
`b"chain "` occurs only at the start of a line, and every optional minimum
score, the load-whole-then-split tokenizer and the line-by-line streaming
tokenizer produce identical chunk sequences, in the same order. -/
theorem c1_modes_agree (content : List Nat) (ms : Option Int)
    (hgood : ∀ l ∈ splitLinesKeep content, MarkerOnlyAtStart l) :
    iterChunksFromBytes content ms = iterChunksFromStream (splitLinesKeep content) ms := by
  have hflat : (splitLinesKeep content).flatten = content := flatten_splitLinesKeep content
  conv_lhs => rw [← hflat]
  exact iterChunksFromBytes_flatten_eq ms (splitLinesKeep content) hgood
    (splitLinesKeep_no_inner_nl content) (splitLinesKeep_shape content)

/-- Witness for the amended C1 on the content `b"chain 5\x0a1\x0a"`. -/
theorem c1_modes_agree_witness :
    (∀ l ∈ splitLinesKeep [99, 104, 97, 105, 110, 32, 53, 10, 49, 10], MarkerOnlyAtStart l) ∧
      iterChunksFromBytes [99, 104, 97, 105, 110, 32, 53, 10, 49, 10] none =
        iterChunksFromStream (splitLinesKeep [99, 104, 97, 105, 110, 32, 53, 10, 49, 10]) none :=
  ⟨by decide, c1_modes_agree [99, 104, 97, 105, 110, 32, 53, 10, 49, 10] none (by decide)⟩

end Pyrion

namespace Pyrion

/-! ### Score filter equivalence (C6) -/

theorem processParts_some_eq_filter (m : Int) :
    ∀ (parts : List (List Nat)),
      processParts (some m) parts =
        (processParts none parts).filter
          (fun c => headerMeetsMinScore (c.takeWhile (fun b => b != 10)) m) := by
  intro parts
  induction parts with
  | nil => rfl
  | cons p ps ih =>
    rw [processParts_cons, processParts_cons, List.filter_append, ih]
    congr 1
    have hne : pyStrip (marker ++ p) ≠ [] := pyStrip_marker_ne_nil p
    rw [if_neg hne, if_neg hne,
      if_pos (show keepChunk none (pyStrip (marker ++ p)) = true from rfl)]
    by_cases hk : keepChunk (some m) (pyStrip (marker ++ p)) = true
    · have hk2 : headerMeetsMinScore
          ((pyStrip (marker ++ p)).takeWhile (fun b => b != 10)) m = true := hk
      rw [if_pos hk, List.filter_singleton, hk2]
      rfl
    · have hk2 : headerMeetsMinScore
          ((pyStrip (marker ++ p)).takeWhile (fun b => b != 10)) m = false := by
        cases hB : keepChunk (some m) (pyStrip (marker ++ p))
        · exact hB
        · exact absurd hB hk
      rw [if_neg hk, List.filter_singleton, hk2]
      rfl

theorem emit_filter_eq (m : Int) (h : List Nat) (body : List (List Nat))
    (hk2 : headerMeetsMinScore ((pyStrip ((h :: body).flatten)).takeWhile (fun b => b != 10)) m
      = headerMeetsMinScore h m) :
    (if !(h :: body).isEmpty && headerMeetsMinScore h m
      then [pyStrip ((h :: body).flatten)] else []) =
    (if !(h :: body).isEmpty && true then [pyStrip ((h :: body).flatten)] else []).filter
      (fun c => headerMeetsMinScore (c.takeWhile (fun b => b != 10)) m) := by
  simp only [List.isEmpty_cons, Bool.not_false, Bool.true_and, Bool.and_true, if_true]
  cases hok : headerMeetsMinScore h m with
  | true =>
    rw [if_pos rfl, List.filter_singleton, hk2, hok]
    rfl
  | false =>
    rw [if_neg (fun hc => Bool.noConfusion hc), List.filter_singleton, hk2, hok]
    rfl

theorem streamGo_some_eq_filter_cur (m : Int) :
    ∀ (lines : List (List Nat)), ∀ (body : List (List Nat)) (h : List Nat),
      marker.isPrefixOf h = true →
      (∀ l ∈ h :: (body ++ lines), ∀ x ∈ l.dropLast, x ≠ 10) →
      LinesShape (h :: (body ++ lines)) →
      streamGo (some m) lines (h :: body) (headerMeetsMinScore h m) =
        (streamGo none lines (h :: body) true).filter
          (fun c => headerMeetsMinScore (c.takeWhile (fun b => b != 10)) m) := by
  intro lines
  induction lines with
  | nil =>
    intro body h hpre h10 hshape
    simp only [List.append_nil] at h10 hshape
    have hsh : h.getLast? = some 10 ∨ body = [] := by
      by_cases hb : body = []
      · exact Or.inr hb
      · exact Or.inl (linesShape_inner [h] body hshape hb h (List.mem_cons_self _ _))
    have hk2 : headerMeetsMinScore
        ((pyStrip ((h :: body).flatten)).takeWhile (fun b => b != 10)) m =
        headerMeetsMinScore h m :=
      keepChunk_eq_okOf (some m) h body hpre (h10 h (List.mem_cons_self _ _)) hsh
    exact emit_filter_eq m h body hk2
  | cons l rest ih =>
    intro body h hpre h10 hshape
    have hshape1 : LinesShape ((h :: body) ++ (l :: rest)) := hshape
    by_cases hl : marker.isPrefixOf l = true
    · have hh10 : h.getLast? = some 10 :=
        linesShape_inner (h :: body) (l :: rest) hshape1 (List.cons_ne_nil _ _) h
          (List.mem_cons_self _ _)
      have hk2 : headerMeetsMinScore
          ((pyStrip ((h :: body).flatten)).takeWhile (fun b => b != 10)) m =
          headerMeetsMinScore h m :=
        keepChunk_eq_okOf (some m) h body hpre (h10 h (List.mem_cons_self _ _)) (Or.inl hh10)
      simp only [streamGo]
      rw [if_pos hl, if_pos hl]
      rw [List.filter_append]
      congr 1
      · exact emit_filter_eq m h body hk2
      · have hrec := ih [] l hl
          (by
            intro x hx
            simp only [List.nil_append] at hx
            exact h10 x (List.mem_cons_of_mem _ (List.mem_append_right _ hx)))
          (by
            simp only [List.nil_append]
            exact linesShape_suffix (h :: body) (l :: rest) hshape1)
        exact hrec
    · have hlf : marker.isPrefixOf l = false := by
        cases hB : marker.isPrefixOf l
        · rfl
        · exact absurd hB hl
      have hlist : (body ++ [l]) ++ rest = body ++ l :: rest := by
        simp
      have hrec := ih (body ++ [l]) h hpre
        (by rw [hlist]; exact h10)
        (by rw [hlist]; exact hshape)
      have hlneg : ¬ marker.isPrefixOf l = true := hl
      simp only [streamGo]
      rw [if_neg hlneg, if_neg hlneg]
      exact hrec

theorem streamGo_some_eq_filter_nil (m : Int) :
    ∀ (lines : List (List Nat)),
      (∀ l ∈ lines, ∀ x ∈ l.dropLast, x ≠ 10) →
      LinesShape lines →
      streamGo (some m) lines [] true =
        (streamGo none lines [] true).filter
          (fun c => headerMeetsMinScore (c.takeWhile (fun b => b != 10)) m) := by
  intro lines
  induction lines with
  | nil =>
    intro _ _
    rfl
  | cons l rest ih =>
    intro h10 hshape
    by_cases hl : marker.isPrefixOf l = true
    · simp only [streamGo]
      rw [if_pos hl, if_pos hl]
      exact streamGo_some_eq_filter_cur m rest [] l hl
        (by simpa using h10)
        (by simpa using hshape)
    · have hlneg : ¬ marker.isPrefixOf l = true := hl
      simp only [streamGo]
      rw [if_neg hlneg, if_neg hlneg]
      exact ih
        (fun x hx => h10 x (List.mem_cons_of_mem _ hx))
        (LinesShape_of_cons hshape)

/-- Claim C6 (tokenizer level): for every content and minimum score, the
filtered chunk sequence of each tokenizer mode is exactly the unfiltered
chunk sequence restricted to the chunks whose header line passes
`_header_meets_min_score`. -/
theorem c6_score_filter_equivalence (content : List Nat) (m : Int) :
    iterChunksFromStream (splitLinesKeep content) (some m) =
      (iterChunksFromStream (splitLinesKeep content) none).filter
        (fun c => headerMeetsMinScore (c.takeWhile (fun b => b != 10)) m) ∧
    iterChunksFromBytes content (some m) =
      (iterChunksFromBytes content none).filter
        (fun c => headerMeetsMinScore (c.takeWhile (fun b => b != 10)) m) := by
  constructor
  · exact streamGo_some_eq_filter_nil m (splitLinesKeep content)
      (splitLinesKeep_no_inner_nl content) (splitLinesKeep_shape content)
  · unfold iterChunksFromBytes
    cases hsp : splitOnMarker content with
    | nil => rfl
    | cons p ps => exact processParts_some_eq_filter m ps

end Pyrion
